import Mathlib

/- Verification development for the pkgutil extraction core (src/pkgutil.c):
   a shallow embedding of its path sanitation, component stripping, include
   filtering and nested-archive orchestration, together with a spec-modelled
   pbzx deframer (the deframer component itself is not present in src/). -/

namespace Pkgutil

/-- Fatal error exits of pkgutil.c (fprintf + exit paths and fail_errno). -/
inductive Err where
  | emptyPathname : Err
  | absolutePathname : String → Err
  | dotdotPathname : String → Err
  | chdirFailed : String → Err
  | mkdirFailed : String → Err
  | invalidOutdir : Err
deriving DecidableEq

/-- State machine of contains_dotdot_segment (pkgutil.c:542-558): scan the
characters accumulating the current segment; a segment ends at a slash or at
the end of the string and the function reports whether some segment is
exactly the two characters dot dot. -/
def cddGo : List Char → List Char → Bool
  | seg, [] => seg == ['.', '.']
  | seg, c :: rest =>
    if c = '/' then
      if seg == ['.', '.'] then true else cddGo [] rest
    else cddGo (seg ++ [c]) rest

/-- contains_dotdot_segment (pkgutil.c:542-558). -/
def contains_dotdot_segment (p : String) : Bool :=
  cddGo [] p.toList

/-- The single leading dot slash strip performed by normalize_rel_path
(pkgutil.c:566-568). -/
def strip_leading_dot_slash (p : String) : String :=
  match p.toList with
  | '.' :: '/' :: rest => String.mk rest
  | _ => p

/-- normalize_rel_path (pkgutil.c:560-586): strip a single leading dot slash,
then fail on an empty result, an absolute path, or a dot dot segment;
otherwise return the resulting relative path. -/
def normalize_rel_path (p : String) : Except Err String :=
  let rel := strip_leading_dot_slash p
  if rel = "" then .error .emptyPathname
  else if rel.toList.head? = some '/' then .error (.absolutePathname rel)
  else if contains_dotdot_segment rel then .error (.dotdotPathname rel)
  else .ok rel

/-- First loop of strip_components_path (pkgutil.c:380-391): consume
characters until the requested number of separators has been passed,
failing when the string ends first. -/
def consumeComponents : Nat → List Char → Option (List Char)
  | 0, l => some l
  | _ + 1, [] => none
  | n + 1, c :: cs => if c = '/' then consumeComponents n cs else consumeComponents (n + 1) cs

/-- Second loop of strip_components_path (pkgutil.c:393-411): skip further
separators and fail when nothing but separators remains. -/
def skipSeparators : List Char → Option (List Char)
  | [] => none
  | c :: cs => if c = '/' then skipSeparators cs else some (c :: cs)

/-- strip_components_path (pkgutil.c:365-412): with a non-positive count the
path is returned unchanged; otherwise the leading components are consumed
and the function yields no result when the path is exhausted. -/
def strip_components_path (path : String) (strip : Int) : Option String :=
  if strip ≤ 0 then some path
  else
    match consumeComponents strip.toNat path.toList with
    | none => none
    | some l1 =>
      match skipSeparators l1 with
      | none => none
      | some l2 => some (String.mk l2)

/-- apply_strip_components (pkgutil.c:414-437): strip the pathname and, when
present, the hardlink target by the same count; a failed strip of either one
yields no result, which the callers turn into a skip. -/
def apply_strip_components (pathname : String) (hardlink : Option String)
    (strip : Int) : Option (String × Option String) :=
  if strip ≤ 0 then some (pathname, hardlink)
  else
    match strip_components_path pathname strip with
    | none => none
    | some p2 =>
      match hardlink with
      | none => some (p2, none)
      | some h =>
        match strip_components_path h strip with
        | none => none
        | some h2 => some (p2, some h2)

/-- Scanner of path_component_count (pkgutil.c:439-465) with its
in_component flag. -/
def pccGo : Bool → List Char → Nat
  | _, [] => 0
  | inComp, c :: cs =>
    if c = '/' then pccGo false cs
    else if inComp then pccGo true cs
    else 1 + pccGo true cs

/-- path_component_count (pkgutil.c:439-465). -/
def path_component_count (p : String) : Nat :=
  pccGo false p.toList

/-- has_include_descendant (pkgutil.c:508-518): some include pattern extends
the given path by a slash and more. -/
def has_include_descendant (includes : List String) (path : String) : Bool :=
  includes.any fun pat =>
    decide (pat.toList.take path.toList.length = path.toList) &&
      (pat.toList.get? path.toList.length == some '/')

/-- join_prefix_path (pkgutil.c:520-540): a null, empty or single-dot
leading part leaves the path alone, otherwise the two are joined with a
slash. -/
def join_prefix_path (pfx : Option String) (path : String) : String :=
  match pfx with
  | none => path
  | some s => if s = "" ∨ s = "." then path else s ++ "/" ++ path

/-- The suffix of a character list after its last slash, the semantics of
the strrchr computation in should_be_treated_as_nested_archive
(pkgutil.c:355-356). -/
def afterLastSlash : List Char → List Char
  | [] => []
  | c :: rest => if '/' ∈ c :: rest then afterLastSlash rest else c :: rest

/-- nested_archive_names (pkgutil.c:22). -/
def nested_archive_names : List String := ["Payload", "Scripts"]

/-- should_be_treated_as_nested_archive (pkgutil.c:351-363): the base name
after the last slash is compared against the fixed marker names. -/
def should_be_treated_as_nested_archive (p : String) : Bool :=
  nested_archive_names.any fun n => afterLastSlash p.toList == n.toList

/-- External-collaborator effects consumed by the orchestrator: the compiled
libarchive matcher (archive_match_excluded) and the success of chdir and of
mkdirs_for_path at the operating-system level. -/
structure Env where
  matchExcluded : String → Bool
  chdirOk : String → Bool
  mkdirOk : String → Bool

/-- should_extract_path (pkgutil.c:494-506): delegate to the external
matcher and extract exactly when the path is not excluded. -/
def should_extract_path (env : Env) (path : String) : Bool :=
  !(env.matchExcluded path)

/-- An entry iterated inside a nested container (archive_entry as seen by
extract_nested_archive_from_stream). -/
structure Entry where
  pathname : String
  hardlink : Option String

/-- An entry of the outermost xar archive; nested carries the entries its
byte stream yields when opened as an archive. -/
structure OEntry where
  pathname : String
  hardlink : Option String
  nested : List Entry

/-- Observable effect of processing one entry. -/
inductive Action where
  | extracted : String → Option String → String → Action
  | skippedFilter : String → Action
  | skippedStrip : String → Action
  | expandedNested : String → String → Int → String → List Action → Action

/-- An action that materializes or skips a flat entry, as opposed to opening
the entry as a nested archive. -/
def Action.isFlatAction : Action → Bool
  | .extracted _ _ _ => true
  | .skippedFilter _ => true
  | .skippedStrip _ => true
  | .expandedNested _ _ _ _ _ => false

/-- Resolution of a chdir target against the current working directory. -/
def resolveChdir (cwd target : String) : String :=
  if target.toList.head? = some '/' then target else cwd ++ "/" ++ target

/-- Body of the entry loop of extract_nested_archive_from_stream
(pkgutil.c:306-340): sanitize the pathname, filter on the prefixed logical
path, strip components, and otherwise extract at the current location. -/
def process_nested_entry (env : Env) (pfx : String) (strip : Int)
    (cur : String) (e : Entry) : Except Err Action :=
  match normalize_rel_path e.pathname with
  | .error err => .error err
  | .ok rel =>
    let logical := join_prefix_path (some pfx) rel
    if !(should_extract_path env logical) then .ok (.skippedFilter rel)
    else
      match apply_strip_components rel e.hardlink strip with
      | none => .ok (.skippedStrip rel)
      | some (p2, hl2) => .ok (.extracted p2 hl2 cur)

/-- The entry loop of extract_nested_archive_from_stream over a list of
entries. -/
def process_nested_entries (env : Env) (pfx : String) (strip : Int)
    (cur : String) : List Entry → Except Err (List Action)
  | [] => .ok []
  | e :: rest =>
    match process_nested_entry env pfx strip cur e with
    | .error err => .error err
    | .ok a =>
      match process_nested_entries env pfx strip cur rest with
      | .error err => .error err
      | .ok acts => .ok (a :: acts)

/-- extract_nested_archive_from_stream (pkgutil.c:272-349): save the current
working directory, change into outdir, process every entry of the nested
container, then change back to the saved directory, a failure of that
restoring chdir being fatal.  The returned string is the final working
directory. -/
def extract_nested_archive_from_stream (env : Env) (entries : List Entry)
    (outdir : String) (strip : Int) (pfx : String) (cwd : String) :
    Except Err (List Action × String) :=
  if !(env.chdirOk outdir) then .error (.chdirFailed outdir)
  else
    let cur := resolveChdir cwd outdir
    match process_nested_entries env pfx strip cur entries with
    | .error err => .error err
    | .ok acts =>
      if !(env.chdirOk cwd) then .error (.chdirFailed cwd)
      else .ok (acts, cwd)

/-- Body of the outer entry loop of main (pkgutil.c:749-822): sanitize, test
for a nested marker, and either run the nested expansion with the derived
outdir, child strip count and prefix, or process the entry flat.  The
returned string is the working directory after the entry. -/
def main_entry_step (env : Env) (includes : List String)
    (doExpandFull : Bool) (strip : Int) (cwd : String) (e : OEntry) :
    Except Err (Action × String) :=
  match normalize_rel_path e.pathname with
  | .error err => .error err
  | .ok rel =>
    if doExpandFull && should_be_treated_as_nested_archive rel then
      let logical := join_prefix_path none rel
      let inc0 := should_extract_path env logical
      let includeNested :=
        if !inc0 && decide (0 < includes.length) &&
            has_include_descendant includes logical then true
        else inc0
      if !includeNested then .ok (.skippedFilter rel, cwd)
      else
        let nestedOutdir := (strip_components_path rel strip).getD "."
        let nestedStrip :=
          if strip > (path_component_count rel : Int) then
            strip - path_component_count rel
          else 0
        if !(env.mkdirOk nestedOutdir) then .error (.mkdirFailed nestedOutdir)
        else
          match extract_nested_archive_from_stream env e.nested nestedOutdir
              nestedStrip rel cwd with
          | .error err => .error err
          | .ok (inner, c) =>
            .ok (.expandedNested rel nestedOutdir nestedStrip rel inner, c)
    else
      let logical := join_prefix_path none rel
      if !(should_extract_path env logical) then .ok (.skippedFilter rel, cwd)
      else
        match apply_strip_components rel e.hardlink strip with
        | none => .ok (.skippedStrip rel, cwd)
        | some (p2, hl2) => .ok (.extracted p2 hl2 cwd, cwd)

/-- ensure_outdir (pkgutil.c:615-625): reject an empty name, accept an
existing directory as is, and otherwise attempt to create it.  The force
parameter is received and never consulted, exactly as in the source. -/
def ensure_outdir (outdirExists : Bool) (mkdirCallOk : Bool)
    (outdir : String) ( force : Bool) : Except Err Unit :=
  if outdir = "" then .error .invalidOutdir
  else if outdirExists then .ok ()
  else if mkdirCallOk then .ok () else .error (.mkdirFailed outdir)

/-- ARCHIVE_EXTRACT_OWNER of archive.h. -/
def ARCHIVE_EXTRACT_OWNER : Nat := 0x0001
/-- ARCHIVE_EXTRACT_PERM of archive.h. -/
def ARCHIVE_EXTRACT_PERM : Nat := 0x0002
/-- ARCHIVE_EXTRACT_TIME of archive.h. -/
def ARCHIVE_EXTRACT_TIME : Nat := 0x0004
/-- ARCHIVE_EXTRACT_NO_OVERWRITE of archive.h. -/
def ARCHIVE_EXTRACT_NO_OVERWRITE : Nat := 0x0008
/-- ARCHIVE_EXTRACT_UNLINK of archive.h. -/
def ARCHIVE_EXTRACT_UNLINK : Nat := 0x0010
/-- ARCHIVE_EXTRACT_ACL of archive.h. -/
def ARCHIVE_EXTRACT_ACL : Nat := 0x0020
/-- ARCHIVE_EXTRACT_FFLAGS of archive.h. -/
def ARCHIVE_EXTRACT_FFLAGS : Nat := 0x0040
/-- ARCHIVE_EXTRACT_XATTR of archive.h. -/
def ARCHIVE_EXTRACT_XATTR : Nat := 0x0080
/-- ARCHIVE_EXTRACT_SECURE_SYMLINKS of archive.h. -/
def ARCHIVE_EXTRACT_SECURE_SYMLINKS : Nat := 0x0100
/-- ARCHIVE_EXTRACT_SECURE_NODOTDOT of archive.h. -/
def ARCHIVE_EXTRACT_SECURE_NODOTDOT : Nat := 0x0200
/-- ARCHIVE_EXTRACT_MAC_METADATA of archive.h. -/
def ARCHIVE_EXTRACT_MAC_METADATA : Nat := 0x2000
/-- ARCHIVE_EXTRACT_SECURE_NOABSOLUTEPATHS of archive.h. -/
def ARCHIVE_EXTRACT_SECURE_NOABSOLUTEPATHS : Nat := 0x10000

/-- disk_flags (pkgutil.c:24-28). -/
def disk_flags : Nat :=
  ARCHIVE_EXTRACT_TIME ||| ARCHIVE_EXTRACT_PERM ||| ARCHIVE_EXTRACT_ACL |||
  ARCHIVE_EXTRACT_XATTR ||| ARCHIVE_EXTRACT_FFLAGS ||| ARCHIVE_EXTRACT_OWNER |||
  ARCHIVE_EXTRACT_SECURE_SYMLINKS ||| ARCHIVE_EXTRACT_SECURE_NODOTDOT |||
  ARCHIVE_EXTRACT_SECURE_NOABSOLUTEPATHS

/-- The flag adjustment of main (pkgutil.c:714-725): force adds the unlink
option and the ownership, permission and metadata bits are cleared.  The
bitwise complement of C is taken within 32 bits. -/
def effectiveDiskFlags ( force : Bool) : Nat :=
  let flags := disk_flags
  let flags := if force then flags ||| ARCHIVE_EXTRACT_UNLINK else flags
  let flags := flags &&& (0xFFFFFFFF - ARCHIVE_EXTRACT_OWNER)
  let flags := flags &&& (0xFFFFFFFF -
    (ARCHIVE_EXTRACT_PERM ||| ARCHIVE_EXTRACT_ACL |||
     ARCHIVE_EXTRACT_XATTR ||| ARCHIVE_EXTRACT_FFLAGS))
  let flags := flags &&& (0xFFFFFFFF - ARCHIVE_EXTRACT_MAC_METADATA)
  flags

/-- Formal error cases of the spec-modelled pbzx deframer. -/
inductive PbzxError where
  | badMagic : PbzxError
  | badHeader : PbzxError
  | shortChunk : PbzxError
  | badTrailer : PbzxError
  | truncated : PbzxError
deriving DecidableEq

/-- Big-endian value of a byte list. -/
def beVal (bs : List Nat) : Nat :=
  bs.foldl (fun a b => a * 256 + b) 0

/-- The four pbzx magic bytes. -/
def pbzxMagic : List Nat := [0x70, 0x62, 0x7a, 0x78]

/-- The fixed six byte sub-container header required by the deframer. -/
def xzHeader : List Nat := [0xFD, 0x37, 0x7a, 0x58, 0x5a, 0x00]

/-- Modelled from the spec: the chunk loop of PbzxDeframer (spec 4.4 steps
2-4), a component absent from src/pkgutil.c.  While bit 24 of the current
flags word is set, read the next eight byte flags word and eight byte chunk
length, require the fixed six byte sub-container header and a length of at
least six, copy the remaining chunk bytes verbatim, and require the last two
emitted bytes of the chunk to be the characters Y and Z; reads past the end
of the input fail. -/
def pbzxChunks : Nat → Nat → List Nat → Except PbzxError (List Nat)
  | fuel, flags, input =>
    if flags.testBit 24 = false then .ok []
    else
      match fuel with
      | 0 => .error .truncated
      | fuel + 1 =>
        if input.length < 22 then .error .truncated
        else
          let flagsNext := beVal (input.take 8)
          let rest1 := input.drop 8
          let len := beVal (rest1.take 8)
          let rest2 := rest1.drop 8
          let hdr := rest2.take 6
          let rest3 := rest2.drop 6
          if hdr ≠ xzHeader then .error .badHeader
          else if len < 6 then .error .shortChunk
          else if rest3.length < len - 6 then .error .truncated
          else
            let data := rest3.take (len - 6)
            let rest4 := rest3.drop (len - 6)
            let chunk := hdr ++ data
            if chunk.drop (chunk.length - 2) ≠ [0x59, 0x5a] then .error .badTrailer
            else
              match pbzxChunks fuel flagsNext rest4 with
              | .ok out => .ok (chunk ++ out)
              | .error e => .error e

/-- Modelled from the spec: PbzxDeframer (spec 4.4 steps 1-2), a component
absent from src/pkgutil.c.  Read the four magic bytes, read the eight byte
big-endian flags word, and run the chunk loop on the remainder.  The fuel
bounds the number of chunks; every chunk consumes at least twenty two input
bytes, so one more than the remaining length never runs out. -/
def pbzxDeframe (input : List Nat) : Except PbzxError (List Nat) :=
  if input.take 4 ≠ pbzxMagic then .error .badMagic
  else if input.length < 12 then .error .truncated
  else
    pbzxChunks ((input.drop 12).length + 1) (beVal ((input.drop 4).take 8))
      (input.drop 12)

/-- A dot dot path segment in specification terms: an occurrence of the two
characters dot dot delimited on the left by the start of the string or a
slash and on the right by the end of the string or a slash. -/
def SpecDotdotSegment (l : List Char) : Prop :=
  ∃ pre post, l = pre ++ '.' :: '.' :: post ∧
    (pre = [] ∨ ∃ q, pre = q ++ ['/']) ∧
    (post = [] ∨ ∃ q, post = '/' :: q)

/-- Environment with nothing excluded and every operating-system call
succeeding. -/
def env0 : Env :=
  { matchExcluded := fun _ => false
    chdirOk := fun _ => true
    mkdirOk := fun _ => true }

/-- Environment of a run with the single include pattern Payload/etc/conf
compiled into the matcher: exactly that path is not excluded. -/
def env1 : Env :=
  { matchExcluded := fun p => !(p == "Payload/etc/conf")
    chdirOk := fun _ => true
    mkdirOk := fun _ => true }

/-- Environment in which changing into the sub directory succeeds but
changing back to the saved working directory fails. -/
def env2 : Env :=
  { matchExcluded := fun _ => false
    chdirOk := fun d => d == "sub"
    mkdirOk := fun _ => true }

/-! Helper lemmas shared by the claim theorems. -/

theorem take_len {α : Type} (l1 l2 : List α) (n : Nat) (h : l1.length = n) :
    (l1 ++ l2).take n = l1 := by
  subst h; exact List.take_left l1 l2

theorem drop_len {α : Type} (l1 l2 : List α) (n : Nat) (h : l1.length = n) :
    (l1 ++ l2).drop n = l2 := by
  subst h; exact List.drop_left l1 l2

theorem process_nested_entry_flat (env : Env) (pfx : String) (strip : Int)
    (cur : String) (e : Entry) (a : Action)
    (h : process_nested_entry env pfx strip cur e = .ok a) :
    a.isFlatAction = true := by
  unfold process_nested_entry at h
  cases hn : normalize_rel_path e.pathname with
  | error err => rw [hn] at h; exact absurd h (by simp)
  | ok rel =>
    rw [hn] at h
    simp only at h
    split at h
    · cases h; rfl
    · split at h
      · cases h; rfl
      · cases h; rfl

theorem process_nested_entries_flat (env : Env) (pfx : String) (strip : Int)
    (cur : String) (entries : List Entry) (acts : List Action)
    (h : process_nested_entries env pfx strip cur entries = .ok acts) :
    ∀ a ∈ acts, a.isFlatAction = true := by
  induction entries generalizing acts with
  | nil =>
    unfold process_nested_entries at h
    cases h
    intro a ha
    cases ha
  | cons e rest ih =>
    unfold process_nested_entries at h
    cases he : process_nested_entry env pfx strip cur e with
    | error err => rw [he] at h; exact absurd h (by simp)
    | ok a0 =>
      rw [he] at h
      simp only at h
      cases hr : process_nested_entries env pfx strip cur rest with
      | error err => rw [hr] at h; exact absurd h (by simp)
      | ok acts0 =>
        rw [hr] at h
        cases h
        intro a ha
        cases ha with
        | head => exact process_nested_entry_flat env pfx strip cur e a0 he
        | tail _ hmem => exact ih acts0 hr a hmem

/-! Claim theorems. -/

/-- C6: strip_components_path with strip count zero returns every pathname
unchanged. -/
theorem strip_components_zero_id (p : String) :
    strip_components_path p 0 = some p := rfl

/-- C4 (evaluation at the failing input): ensure_outdir succeeds on an
already existing output directory whether or not force is given, and the
disk writer options never include the no-overwrite bit, force only adding
the unlink bit; so a re-run without force does not fail before overwriting,
contrary to the claim. -/
theorem ensure_outdir_ignores_force :
    ensure_outdir true true "outdir" false = .ok () ∧
    ensure_outdir true true "outdir" true = .ok () ∧
    effectiveDiskFlags false &&& ARCHIVE_EXTRACT_NO_OVERWRITE = 0 ∧
    effectiveDiskFlags true &&& ARCHIVE_EXTRACT_NO_OVERWRITE = 0 ∧
    effectiveDiskFlags true = effectiveDiskFlags false ||| ARCHIVE_EXTRACT_UNLINK := by
  refine ⟨rfl, rfl, ?_, ?_, ?_⟩ <;> decide

/-- C2 (counterexample): inside a nested container, an entry whose base name
is the nested marker Payload is materialized as an opaque flat file by the
orchestrator, not expanded recursively: the inner action is extracted, not
expandedNested. -/
theorem nested_marker_inside_nested_not_expanded :
    should_be_treated_as_nested_archive "Foo/Payload" = true ∧
    main_entry_step env0 [] true 0 "/out" ⟨"Payload", none, [⟨"Foo/Payload", none⟩]⟩ =
      .ok (.expandedNested "Payload" "Payload" 0 "Payload"
        [.extracted "Foo/Payload" none "/out/Payload"], "/out") :=
  ⟨rfl, rfl⟩

/-- C2 (amended): every action produced inside a nested container is a flat
materialization or a skip; the expansion procedure is never applied
recursively at deeper nesting levels. -/
theorem extract_nested_actions_flat (env : Env) (entries : List Entry)
    (outdir : String) (strip : Int) (pfx : String) (cwd : String)
    (acts : List Action) (c : String)
    (h : extract_nested_archive_from_stream env entries outdir strip pfx cwd =
      .ok (acts, c)) :
    ∀ a ∈ acts, a.isFlatAction = true := by
  simp only [extract_nested_archive_from_stream] at h
  split at h
  · exact absurd h (by simp)
  · cases hp : process_nested_entries env pfx strip (resolveChdir cwd outdir) entries with
    | error err => rw [hp] at h; exact absurd h (by simp)
    | ok acts0 =>
      rw [hp] at h
      simp only at h
      split at h
      · exact absurd h (by simp)
      · simp only [Except.ok.injEq, Prod.mk.injEq] at h
        obtain ⟨ha, hc⟩ := h
        exact ha ▸ process_nested_entries_flat env pfx strip (resolveChdir cwd outdir)
          entries acts0 hp

/-- Witness for the amended C2 theorem at a concrete run. -/
theorem extract_nested_actions_flat_w :
    (Action.extracted "Payload" none "/out/sub").isFlatAction = true :=
  extract_nested_actions_flat env0 [⟨"Payload", none⟩] "sub" 0 "Payload" "/out"
    [Action.extracted "Payload" none "/out/sub"] "/out" rfl
    (Action.extracted "Payload" none "/out/sub") (by simp)

theorem extract_nested_ok_cwd (env : Env) (entries : List Entry)
    (outdir : String) (strip : Int) (pfx : String) (cwd : String)
    (acts : List Action) (c : String)
    (h : extract_nested_archive_from_stream env entries outdir strip pfx cwd =
      .ok (acts, c)) : c = cwd := by
  simp only [extract_nested_archive_from_stream] at h
  split at h
  · exact absurd h (by simp)
  · cases hp : process_nested_entries env pfx strip (resolveChdir cwd outdir) entries with
    | error err => rw [hp] at h; exact absurd h (by simp)
    | ok acts0 =>
      rw [hp] at h
      simp only at h
      split at h
      · exact absurd h (by simp)
      · simp only [Except.ok.injEq, Prod.mk.injEq] at h
        exact h.2.symm

/-- C8: on successful return the working directory reported by
extract_nested_archive_from_stream equals the pre-call working directory; a
failing restoring chdir is itself a fatal error; and the outer loop resumes
each sibling entry at the unchanged working directory. -/
theorem extract_nested_restores_cwd (env : Env) (entries : List Entry)
    (outdir : String) (strip : Int) (pfx : String) (cwd : String) :
    (∀ acts c, extract_nested_archive_from_stream env entries outdir strip pfx cwd =
        .ok (acts, c) → c = cwd) ∧
    (env.chdirOk outdir = true → env.chdirOk cwd = false →
      ∀ acts, process_nested_entries env pfx strip (resolveChdir cwd outdir) entries =
          .ok acts →
        extract_nested_archive_from_stream env entries outdir strip pfx cwd =
          .error (.chdirFailed cwd)) ∧
    (∀ (includes : List String) (e : OEntry) (a : Action) (c : String),
      main_entry_step env includes true strip cwd e = .ok (a, c) → c = cwd) := by
  refine ⟨?_, ?_, ?_⟩
  · intro acts c h
    exact extract_nested_ok_cwd env entries outdir strip pfx cwd acts c h
  · intro h1 h2 acts hp
    simp [extract_nested_archive_from_stream, h1, h2, hp]
  · intro includes e a c h
    simp only [main_entry_step] at h
    cases hn : normalize_rel_path e.pathname with
    | error err => rw [hn] at h; exact absurd h (by simp)
    | ok rel =>
      rw [hn] at h
      simp only at h
      repeat' split at h
      all_goals try (simp at h; done)
      all_goals simp only [Except.ok.injEq, Prod.mk.injEq] at h
      all_goals try exact h.2.symm
      all_goals rename_i inner c2 heq hlt
      all_goals rw [← h.2]
      all_goals exact extract_nested_ok_cwd _ _ _ _ _ _ _ _ heq

/-- Witness for C8 at concrete runs: a successful call reports the saved
directory and a failing restoring chdir aborts. -/
theorem extract_nested_restores_cwd_w :
    ("/out" : String) = "/out" ∧
    extract_nested_archive_from_stream env2 [] "sub" 0 "p" "/out" =
      .error (.chdirFailed "/out") :=
  ⟨(extract_nested_restores_cwd env0 [⟨"Payload", none⟩] "sub" 0 "Payload" "/out").1
      [Action.extracted "Payload" none "/out/sub"] "/out" rfl,
   (extract_nested_restores_cwd env2 [] "sub" 0 "p" "/out").2.1 rfl rfl [] rfl⟩

/-- C10: the hardlink target of an entry is only ever passed through
apply_strip_components, whose failure skips the entry; an arbitrary target,
including an absolute one or one containing dot dot segments, is handed on
to the disk extraction step without any of the normalize_rel_path checks. -/
theorem hardlink_target_not_sanitized (env : Env) (pfx : String) (strip : Int)
    (cur : String) (p t rel : String)
    (h1 : normalize_rel_path p = .ok rel)
    (h2 : should_extract_path env (join_prefix_path (some pfx) rel) = true) :
    (apply_strip_components rel (some t) strip = none →
      process_nested_entry env pfx strip cur ⟨p, some t⟩ = .ok (.skippedStrip rel)) ∧
    (∀ p2 t2, apply_strip_components rel (some t) strip = some (p2, some t2) →
      process_nested_entry env pfx strip cur ⟨p, some t⟩ =
        .ok (.extracted p2 (some t2) cur) ∧
      (strip ≤ 0 → t2 = t) ∧
      (0 < strip → strip_components_path t strip = some t2)) := by
  constructor
  · intro hs
    unfold process_nested_entry
    rw [h1]
    simp only [h2, hs]
    rfl
  · intro p2 t2 hs
    refine ⟨?_, ?_, ?_⟩
    · unfold process_nested_entry
      rw [h1]
      simp only [h2, hs]
      rfl
    · intro hle
      unfold apply_strip_components at hs
      rw [if_pos hle] at hs
      cases hs
      rfl
    · intro hpos
      unfold apply_strip_components at hs
      rw [if_neg (by omega)] at hs
      cases hsp : strip_components_path rel strip with
      | none => rw [hsp] at hs; exact absurd hs (by simp)
      | some q =>
        rw [hsp] at hs
        simp only at hs
        cases hst : strip_components_path t strip with
        | none => rw [hst] at hs; exact absurd hs (by simp)
        | some q2 =>
          rw [hst] at hs
          simp only at hs
          cases hs
          rfl

/-- Witness for C10: with strip count zero, a hardlink entry whose target is
a dot dot path is materialized with that target untouched. -/
theorem hardlink_target_not_sanitized_w :
    process_nested_entry env0 "p" 0 "/out" ⟨"a", some "../evil"⟩ =
      .ok (.extracted "a" (some "../evil") "/out") :=
  ((hardlink_target_not_sanitized env0 "p" 0 "/out" "a" "../evil" "a" rfl rfl).2
    "a" "../evil" rfl).1

/-- C3 (counterexample): with the include pattern Payload/etc/conf, the
logical path Payload/etc inside the nested container is a path-prefix
ancestor of an include pattern, yet the nested entry loop skips it, because
has_include_descendant is never consulted there. -/
theorem include_ancestor_skipped_inside_nested :
    has_include_descendant ["Payload/etc/conf"]
      (join_prefix_path (some "Payload") "etc") = true ∧
    should_extract_path env1 "Payload/etc/conf" = true ∧
    process_nested_entry env1 "Payload" 0 "/out/Payload" ⟨"etc", none⟩ =
      .ok (.skippedFilter "etc") :=
  ⟨rfl, rfl, rfl⟩

/-- C3 (amended): inside a nested container an entry is skipped by the
filter exactly when the external matcher rejects its prefixed logical path,
the ancestor rule playing no part; the has_include_descendant fallback is
applied only when deciding whether to expand a nested marker entry of the
outermost archive. -/
theorem include_ancestor_only_outer_marker :
    (∀ (env : Env) (pfx : String) (strip : Int) (cur : String) (e : Entry)
        (rel : String),
      normalize_rel_path e.pathname = .ok rel →
      (process_nested_entry env pfx strip cur e = .ok (.skippedFilter rel) ↔
        should_extract_path env (join_prefix_path (some pfx) rel) = false)) ∧
    (∀ (env : Env) (includes : List String) (strip : Int) (cwd : String)
        (e : OEntry) (rel : String),
      normalize_rel_path e.pathname = .ok rel →
      should_be_treated_as_nested_archive rel = true →
      should_extract_path env rel = false →
      0 < includes.length →
      has_include_descendant includes rel = true →
      env.mkdirOk ((strip_components_path rel strip).getD ".") = true →
      (∀ d, env.chdirOk d = true) →
      e.nested = [] →
      main_entry_step env includes true strip cwd e =
        .ok (.expandedNested rel ((strip_components_path rel strip).getD ".")
          (if strip > (path_component_count rel : Int) then
            strip - path_component_count rel else 0) rel [], cwd)) := by
  constructor
  · intro env pfx strip cur e rel hn
    cases hse : should_extract_path env (join_prefix_path (some pfx) rel) with
    | false =>
      simp only [process_nested_entry, hn]
      simp [hse]
    | true =>
      simp only [process_nested_entry, hn]
      cases hs : apply_strip_components rel e.hardlink strip with
      | none => simp [hse, hs]
      | some pr => simp [hse, hs]
  · intro env includes strip cwd e rel hn hmark hse hlen hinc hmk hch hnest
    simp only [main_entry_step, hn]
    simp only [join_prefix_path] at hse hinc ⊢
    simp [hmark, hse, hinc, hlen, hmk, hch, hnest,
      extract_nested_archive_from_stream, process_nested_entries]

/-- Witness for the amended C3 theorem: both parts at a concrete run with
the single include pattern Payload/etc/conf. -/
theorem include_ancestor_only_outer_marker_w :
    (process_nested_entry env1 "Payload" 0 "/out/Payload" ⟨"etc", none⟩ =
        .ok (.skippedFilter "etc") ↔
      should_extract_path env1 (join_prefix_path (some "Payload") "etc") = false) ∧
    main_entry_step env1 ["Payload/etc/conf"] true 0 "/out" ⟨"Payload", none, []⟩ =
      .ok (.expandedNested "Payload" ((strip_components_path "Payload" 0).getD ".")
        (if (0 : Int) > (path_component_count "Payload" : Int) then
          (0 : Int) - path_component_count "Payload" else 0) "Payload" [], "/out") :=
  ⟨include_ancestor_only_outer_marker.1 env1 "Payload" 0 "/out/Payload"
      ⟨"etc", none⟩ "etc" rfl,
   include_ancestor_only_outer_marker.2 env1 ["Payload/etc/conf"] 0 "/out"
      ⟨"Payload", none, []⟩ "Payload" rfl rfl rfl (by decide) rfl rfl
      (fun _ => rfl) rfl⟩

/-- C7: for an accepted nested marker entry in expand-full mode the child
strip count handed to the recursive extraction equals the current count
minus the segments consumed, floored at zero: it is the current count minus
the minimum of the count and the full component count of the sanitized
path, hence never negative, and equals the clamped difference with the full
segment count. -/
theorem nested_child_strip_budget (env : Env) (includes : List String)
    (strip : Int) (cwd : String) (e : OEntry) (rel : String)
    (h0 : 0 ≤ strip)
    (h1 : normalize_rel_path e.pathname = .ok rel)
    (h2 : should_be_treated_as_nested_archive rel = true)
    (h3 : should_extract_path env rel = true)
    (h4 : env.mkdirOk ((strip_components_path rel strip).getD ".") = true)
    (h5 : ∀ d, env.chdirOk d = true)
    (h6 : e.nested = []) :
    main_entry_step env includes true strip cwd e =
      .ok (.expandedNested rel ((strip_components_path rel strip).getD ".")
        (strip - min strip (path_component_count rel)) rel [], cwd) ∧
    0 ≤ strip - min strip ((path_component_count rel : Int)) ∧
    strip - min strip ((path_component_count rel : Int)) =
      max 0 (strip - (path_component_count rel : Int)) := by
  have hcs : (if strip > (path_component_count rel : Int) then
      strip - (path_component_count rel : Int) else 0) =
      strip - min strip ((path_component_count rel : Int)) := by
    split <;> omega
  refine ⟨?_, by omega, by omega⟩
  rw [← hcs]
  simp only [main_entry_step, h1]
  simp only [join_prefix_path] at h3 ⊢
  simp [h2, h3, h4, h5, h6,
    extract_nested_archive_from_stream, process_nested_entries]

/-- Witness for C7 at a concrete marker entry with two components and strip
count two. -/
theorem nested_child_strip_budget_w :
    main_entry_step env0 [] true 2 "/out" ⟨"a/Payload", none, []⟩ =
      .ok (.expandedNested "a/Payload"
        ((strip_components_path "a/Payload" 2).getD ".")
        ((2 : Int) - min 2 (path_component_count "a/Payload")) "a/Payload" [],
        "/out") ∧
    0 ≤ (2 : Int) - min 2 ((path_component_count "a/Payload" : Int)) ∧
    (2 : Int) - min 2 ((path_component_count "a/Payload" : Int)) =
      max 0 ((2 : Int) - (path_component_count "a/Payload" : Int)) :=
  nested_child_strip_budget env0 [] 2 "/out" ⟨"a/Payload", none, []⟩ "a/Payload"
    (by decide) rfl rfl rfl rfl (fun _ => rfl) rfl

theorem string_data_append (a b : String) : (a ++ b).data = a.data ++ b.data := by
  cases a; cases b; rfl

theorem afterLastSlash_eq_iff (s : List Char) (hs : '/' ∉ s) :
    ∀ l : List Char, afterLastSlash l = s ↔ l = s ∨ ∃ q, l = q ++ '/' :: s := by
  intro l
  induction l with
  | nil =>
    constructor
    · intro h; exact Or.inl h
    · rintro (h | ⟨q, hq⟩)
      · exact h
      · exact absurd hq (by simp)
  | cons c rest ih =>
    by_cases hm : '/' ∈ c :: rest
    · rw [show afterLastSlash (c :: rest) = afterLastSlash rest from by
        simp [afterLastSlash, hm]]
      rw [ih]
      constructor
      · rintro (rfl | ⟨q, rfl⟩)
        · have hc : c = '/' := by
            rcases List.mem_cons.mp hm with h | h
            · exact h.symm
            · exact absurd h hs
          exact Or.inr ⟨[], by simp [hc]⟩
        · exact Or.inr ⟨c :: q, rfl⟩
      · rintro (h | ⟨q, hq⟩)
        · exact absurd (h ▸ hm) hs
        · cases q with
          | nil =>
            simp only [List.nil_append] at hq
            exact Or.inl (List.tail_eq_of_cons_eq hq)
          | cons x q2 =>
            simp only [List.cons_append] at hq
            exact Or.inr ⟨q2, List.tail_eq_of_cons_eq hq⟩
    · rw [show afterLastSlash (c :: rest) = c :: rest from by
        simp [afterLastSlash, hm]]
      constructor
      · intro h; exact Or.inl h
      · rintro (h | ⟨q, hq⟩)
        · exact h
        · exact absurd (by rw [hq]; simp : '/' ∈ c :: rest) hm

/-- C9: an entry counts as a nested archive exactly when its final path
component after the last slash is the string Payload or the string Scripts;
no other name and no other part of the path triggers it. -/
theorem nested_marker_basename_iff (p : String) :
    should_be_treated_as_nested_archive p = true ↔
      ((p = "Payload" ∨ ∃ q : String, p = q ++ "/Payload") ∨
       (p = "Scripts" ∨ ∃ q : String, p = q ++ "/Scripts")) := by
  have hP := afterLastSlash_eq_iff "Payload".toList (by decide) p.toList
  have hS := afterLastSlash_eq_iff "Scripts".toList (by decide) p.toList
  simp only [should_be_treated_as_nested_archive, nested_archive_names,
    List.any_cons, List.any_nil, Bool.or_false, Bool.or_eq_true, beq_iff_eq]
  constructor
  · rintro (h | h)
    · refine Or.inl ?_
      rcases hP.mp h with h2 | ⟨q, h2⟩
      · exact Or.inl (String.ext h2)
      · refine Or.inr ⟨⟨q⟩, String.ext ?_⟩
        rw [string_data_append]
        exact h2
    · refine Or.inr ?_
      rcases hS.mp h with h2 | ⟨q, h2⟩
      · exact Or.inl (String.ext h2)
      · refine Or.inr ⟨⟨q⟩, String.ext ?_⟩
        rw [string_data_append]
        exact h2
  · rintro ((h | ⟨q, h⟩) | (h | ⟨q, h⟩))
    · exact Or.inl (hP.mpr (Or.inl (congrArg String.data h)))
    · refine Or.inl (hP.mpr (Or.inr ⟨q.data, ?_⟩))
      have := congrArg String.data h
      rw [string_data_append] at this
      exact this
    · exact Or.inr (hS.mpr (Or.inl (congrArg String.data h)))
    · refine Or.inr (hS.mpr (Or.inr ⟨q.data, ?_⟩))
      have := congrArg String.data h
      rw [string_data_append] at this
      exact this

theorem spec_dotdot_of_no_slash (seg : List Char) (h : '/' ∉ seg) :
    SpecDotdotSegment seg ↔ seg = ['.', '.'] := by
  constructor
  · rintro ⟨pre, post, heq, hpre, hpost⟩
    have hpre0 : pre = [] := by
      rcases hpre with rfl | ⟨q, rfl⟩
      · rfl
      · exact absurd (by rw [heq]; simp : '/' ∈ seg) h
    subst hpre0
    simp only [List.nil_append] at heq
    have hpost0 : post = [] := by
      rcases hpost with rfl | ⟨q, rfl⟩
      · rfl
      · exact absurd (by rw [heq]; simp : '/' ∈ seg) h
    subst hpost0
    exact heq
  · rintro rfl
    exact ⟨[], [], rfl, Or.inl rfl, Or.inl rfl⟩

theorem spec_slash_split (seg rest : List Char) (h : '/' ∉ seg) :
    SpecDotdotSegment (seg ++ '/' :: rest) ↔
      seg = ['.', '.'] ∨ SpecDotdotSegment rest := by
  constructor
  · rintro ⟨pre, post, heq, hpre, hpost⟩
    rcases List.append_eq_append_iff.mp heq with ⟨k, hPreEq, hRestEq⟩ | ⟨k, hSegEq, hDots⟩
    · cases k with
      | nil =>
        simp only [List.nil_append, List.cons.injEq] at hRestEq
        exact absurd hRestEq.1 (by decide)
      | cons x k2 =>
        simp only [List.cons_append, List.cons.injEq] at hRestEq
        obtain ⟨hx, hrest⟩ := hRestEq
        refine Or.inr ⟨k2, post, hrest, ?_, hpost⟩
        rcases hpre with rfl | ⟨q, hq⟩
        · exact absurd hPreEq.symm (by simp)
        · rcases k2.eq_nil_or_concat' with rfl | ⟨k3, c2, rfl⟩
          · exact Or.inl rfl
          · have h2 : (seg ++ x :: k3) ++ [c2] = q ++ ['/'] := by
              rw [← hq, hPreEq]; simp
            have hc2 : c2 = '/' := by
              have := (List.append_inj' h2 (by simp)).2
              simpa using this
            exact Or.inr ⟨k3, by rw [hc2]⟩
    · have hpre0 : pre = [] := by
        rcases hpre with rfl | ⟨q, rfl⟩
        · rfl
        · exact absurd (by rw [hSegEq]; simp : '/' ∈ seg) h
      subst hpre0
      simp only [List.nil_append] at hSegEq
      subst hSegEq
      cases seg with
      | nil =>
        simp only [List.nil_append, List.cons.injEq] at hDots
        exact absurd hDots.1 (by decide)
      | cons x k2 =>
        simp only [List.cons_append, List.cons.injEq] at hDots
        obtain ⟨hx, hDots2⟩ := hDots
        cases k2 with
        | nil =>
          simp only [List.nil_append, List.cons.injEq] at hDots2
          exact absurd hDots2.1 (by decide)
        | cons y k3 =>
          simp only [List.cons_append, List.cons.injEq] at hDots2
          obtain ⟨hy, hpost2⟩ := hDots2
          rcases hpost with rfl | ⟨q, hq⟩
          · exact absurd hpost2 (by simp)
          · cases k3 with
            | nil => exact Or.inl (by rw [← hx, ← hy])
            | cons z k4 =>
              have hz : z = '/' := by
                rw [hq] at hpost2
                simp only [List.cons_append, List.cons.injEq] at hpost2
                exact hpost2.1.symm
              exact absurd (by rw [hz]; simp : '/' ∈ x :: y :: z :: k4) h
  · rintro (rfl | ⟨pre, post, heq, hpre, hpost⟩)
    · exact ⟨[], '/' :: rest, rfl, Or.inl rfl, Or.inr ⟨rest, rfl⟩⟩
    · refine ⟨seg ++ '/' :: pre, post, by rw [heq]; simp, ?_, hpost⟩
      rcases hpre with rfl | ⟨q, rfl⟩
      · exact Or.inr ⟨seg, by simp⟩
      · exact Or.inr ⟨seg ++ '/' :: q, by simp⟩

theorem cddGo_iff : ∀ (rest seg : List Char), '/' ∉ seg →
    (cddGo seg rest = true ↔ SpecDotdotSegment (seg ++ rest)) := by
  intro rest
  induction rest with
  | nil =>
    intro seg hseg
    simp only [cddGo, List.append_nil, beq_iff_eq]
    exact (spec_dotdot_of_no_slash seg hseg).symm
  | cons c rest ih =>
    intro seg hseg
    by_cases hc : c = '/'
    · subst hc
      rw [show cddGo seg ('/' :: rest) =
          (if seg == ['.', '.'] then true else cddGo [] rest) from by
        simp [cddGo]]
      rw [spec_slash_split seg rest hseg]
      by_cases hdd : seg = ['.', '.']
      · simp [hdd]
      · have h2 := ih [] (by simp)
        simp only [List.nil_append] at h2
        simp [hdd, h2]
    · rw [show cddGo seg (c :: rest) = cddGo (seg ++ [c]) rest from by
        simp [cddGo, hc]]
      have hseg2 : '/' ∉ seg ++ [c] := by
        intro hmem
        rcases List.mem_append.mp hmem with hm | hm
        · exact hseg hm
        · exact hc (List.mem_singleton.mp hm).symm
      rw [ih (seg ++ [c]) hseg2, List.append_assoc, List.singleton_append]

theorem contains_dotdot_iff (p : String) :
    contains_dotdot_segment p = true ↔ SpecDotdotSegment p.toList := by
  have h := cddGo_iff p.toList [] (by simp)
  simpa [contains_dotdot_segment] using h

/-- C5: normalize_rel_path fails exactly when, after stripping one leading
dot slash, the pathname is empty, starts with a separator, or has a dot dot
segment; and a returned path is that stripped pathname, which is nonempty,
has no leading separator and no dot dot segment. -/
theorem normalize_rel_path_safe (p : String) :
    ((∃ e, normalize_rel_path p = .error e) ↔
      (strip_leading_dot_slash p = "" ∨
       (strip_leading_dot_slash p).toList.head? = some '/' ∨
       SpecDotdotSegment (strip_leading_dot_slash p).toList)) ∧
    (∀ r, normalize_rel_path p = .ok r →
      r = strip_leading_dot_slash p ∧ r ≠ "" ∧ r.toList.head? ≠ some '/' ∧
      ¬ SpecDotdotSegment r.toList) := by
  have hdd := contains_dotdot_iff (strip_leading_dot_slash p)
  simp only [normalize_rel_path]
  split_ifs with h1 h2 h3
  · exact ⟨⟨fun _ => Or.inl h1, fun _ => ⟨.emptyPathname, rfl⟩⟩,
      fun r hr => absurd hr (by simp)⟩
  · exact ⟨⟨fun _ => Or.inr (Or.inl h2), fun _ => ⟨_, rfl⟩⟩,
      fun r hr => absurd hr (by simp)⟩
  · exact ⟨⟨fun _ => Or.inr (Or.inr (hdd.mp h3)), fun _ => ⟨_, rfl⟩⟩,
      fun r hr => absurd hr (by simp)⟩
  · refine ⟨⟨fun ⟨e, he⟩ => absurd he (by simp), fun hc => ?_⟩, fun r hr => ?_⟩
    · rcases hc with hc | hc | hc
      · exact absurd hc h1
      · exact absurd hc h2
      · exact absurd (hdd.mpr hc) h3
    · cases hr
      exact ⟨rfl, h1, h2, fun hs => h3 (hdd.mpr hs)⟩

/-- Witness for C5 at a concrete pathname with a leading dot slash. -/
theorem normalize_rel_path_safe_w :
    "a/b" = strip_leading_dot_slash "./a/b" ∧ ("a/b" : String) ≠ "" ∧
    ("a/b" : String).toList.head? ≠ some '/' ∧
    ¬ SpecDotdotSegment ("a/b" : String).toList :=
  (normalize_rel_path_safe "./a/b").2 "a/b" rfl

theorem pbzxChunks_clear (fuel flags : Nat) (input : List Nat)
    (h : flags.testBit 24 = false) : pbzxChunks fuel flags input = .ok [] := by
  unfold pbzxChunks
  rw [h]
  simp

theorem pbzxChunks_single (fuel : Nat) (flags : Nat) (f2b lenb pre : List Nat)
    (h2 : flags.testBit 24 = true)
    (h3 : f2b.length = 8) (h4 : (beVal f2b).testBit 24 = false)
    (h5 : lenb.length = 8) (h6 : beVal lenb = 6 + (pre.length + 2)) :
    pbzxChunks (fuel + 1) flags
      (f2b ++ (lenb ++ (xzHeader ++ (pre ++ [0x59, 0x5a])))) =
      .ok (xzHeader ++ (pre ++ [0x59, 0x5a])) := by
  have e5 : (f2b ++ (lenb ++ (xzHeader ++ (pre ++ [(0x59:Nat), 0x5a])))).take 8 = f2b :=
    take_len _ _ 8 h3
  have e6 : (f2b ++ (lenb ++ (xzHeader ++ (pre ++ [(0x59:Nat), 0x5a])))).drop 8 =
      lenb ++ (xzHeader ++ (pre ++ [0x59, 0x5a])) := drop_len _ _ 8 h3
  have e7 : (lenb ++ (xzHeader ++ (pre ++ [(0x59:Nat), 0x5a]))).take 8 = lenb :=
    take_len _ _ 8 h5
  have e8 : (lenb ++ (xzHeader ++ (pre ++ [(0x59:Nat), 0x5a]))).drop 8 =
      xzHeader ++ (pre ++ [0x59, 0x5a]) := drop_len _ _ 8 h5
  have e9 : (xzHeader ++ (pre ++ [(0x59:Nat), 0x5a])).take 6 = xzHeader :=
    take_len _ _ 6 rfl
  have e10 : (xzHeader ++ (pre ++ [(0x59:Nat), 0x5a])).drop 6 =
      pre ++ [0x59, 0x5a] := drop_len _ _ 6 rfl
  have e11 : (pre ++ [(0x59:Nat), 0x5a]).length = pre.length + 2 := by simp
  have e12 : (pre ++ [(0x59:Nat), 0x5a]).take (pre.length + 2) = pre ++ [0x59, 0x5a] := by
    rw [← e11]; exact List.take_length _
  have e13 : (pre ++ [(0x59:Nat), 0x5a]).drop (pre.length + 2) = [] := by
    rw [← e11]; exact List.drop_length _
  have e14 : (xzHeader ++ (pre ++ [(0x59:Nat), 0x5a])).length - 2 = pre.length + 6 := by
    simp [xzHeader]
  have e15 : (xzHeader ++ (pre ++ [(0x59:Nat), 0x5a])).drop (pre.length + 6) =
      [0x59, 0x5a] := by
    rw [← List.append_assoc]
    exact drop_len _ _ _ (by simp [xzHeader])
  have hlt : ¬((f2b ++ (lenb ++ (xzHeader ++ (pre ++ [(0x59:Nat), 0x5a])))).length < 22) := by
    simp [h3, h5, xzHeader]
    omega
  unfold pbzxChunks
  rw [h2]
  rw [if_neg (by simp)]
  simp only []
  rw [if_neg hlt]
  rw [e5, e6, e7, e8, e9, e10]
  rw [if_neg (by simp)]
  rw [h6]
  rw [if_neg (by omega)]
  rw [show 6 + (pre.length + 2) - 6 = pre.length + 2 from by omega]
  rw [e11]
  rw [if_neg (by omega)]
  rw [e12, e13, e14, e15]
  rw [if_neg (by simp)]
  rw [pbzxChunks_clear fuel (beVal f2b) [] h4]
  simp


/-- C1: the spec-modelled deframer on a well-formed single-chunk pbzx stream
(correct magic, a mandatory-chunk flags word with bit 24 set, a second flags
word with the continuation bit clear, correct length word, the fixed six
byte sub-header, and a payload whose last two bytes are Y and Z) emits
exactly the embedded sub-stream bytes, unmodified. -/
theorem pbzxDeframe_single_chunk_exact (f1b f2b lenb pre : List Nat)
    (h1 : f1b.length = 8) (h2 : (beVal f1b).testBit 24 = true)
    (h3 : f2b.length = 8) (h4 : (beVal f2b).testBit 24 = false)
    (h5 : lenb.length = 8) (h6 : beVal lenb = 6 + (pre.length + 2)) :
    pbzxDeframe
      (pbzxMagic ++ (f1b ++ (f2b ++ (lenb ++ (xzHeader ++ (pre ++ [0x59, 0x5a])))))) =
      .ok (xzHeader ++ (pre ++ [0x59, 0x5a])) := by
  have e2 : (pbzxMagic ++ (f1b ++ (f2b ++ (lenb ++
      (xzHeader ++ (pre ++ [(0x59:Nat), 0x5a])))))).drop 4 =
      f1b ++ (f2b ++ (lenb ++ (xzHeader ++ (pre ++ [0x59, 0x5a])))) :=
    drop_len _ _ 4 rfl
  have e1 : (pbzxMagic ++ (f1b ++ (f2b ++ (lenb ++
      (xzHeader ++ (pre ++ [(0x59:Nat), 0x5a])))))).take 4 = pbzxMagic :=
    take_len _ _ 4 rfl
  have e3 : (f1b ++ (f2b ++ (lenb ++ (xzHeader ++
      (pre ++ [(0x59:Nat), 0x5a]))))).take 8 = f1b := take_len _ _ 8 h1
  have e4 : (pbzxMagic ++ (f1b ++ (f2b ++ (lenb ++
      (xzHeader ++ (pre ++ [(0x59:Nat), 0x5a])))))).drop 12 =
      f2b ++ (lenb ++ (xzHeader ++ (pre ++ [0x59, 0x5a]))) := by
    rw [show (12 : Nat) = 4 + 8 from rfl, ← List.drop_drop, e2]
    exact drop_len _ _ 8 h1
  have hlen : ¬((pbzxMagic ++ (f1b ++ (f2b ++ (lenb ++
      (xzHeader ++ (pre ++ [(0x59:Nat), 0x5a])))))).length < 12) := by
    simp [pbzxMagic, h1]
  unfold pbzxDeframe
  rw [e1]
  rw [if_neg (by simp)]
  rw [if_neg hlen]
  rw [e2, e3, e4]
  exact pbzxChunks_single _ (beVal f1b) f2b lenb pre h2 h3 h4 h5 h6


/-- Witness for C1 on a concrete minimal single-chunk stream. -/
theorem pbzxDeframe_single_chunk_exact_w :
    pbzxDeframe
      (pbzxMagic ++ ([0, 0, 0, 0, 1, 0, 0, 0] ++ ([0, 0, 0, 0, 0, 0, 0, 0] ++
        ([0, 0, 0, 0, 0, 0, 0, 8] ++ (xzHeader ++ ([] ++ [0x59, 0x5a])))))) =
      .ok (xzHeader ++ ([] ++ [0x59, 0x5a])) :=
  pbzxDeframe_single_chunk_exact [0, 0, 0, 0, 1, 0, 0, 0] [0, 0, 0, 0, 0, 0, 0, 0]
    [0, 0, 0, 0, 0, 0, 0, 8] [] rfl (by decide) rfl (by decide) rfl (by decide)


end Pkgutil
